import Mathlib

set_option maxHeartbeats 1000000

/-!
Verification development for two components of the repository:

* the streamed tool-call delta accumulator `tool_list_to_tool_obj`
  (`05_finance_stock/stock_info_streamlit.py`), which merges partial,
  index-addressed tool-call fragments into complete tool-call descriptors;
* the recursive message-tree renderer `_display_message_tree` together with
  `is_terminal_dict` and `format_terminal_dict` (`utils/messages.py`).

Both are embedded shallowly: Python dicts keyed by integers become ordered
association lists (Python dicts preserve insertion order), streamed fragment
records become structures, and the printing renderer becomes a function
returning the list of printed lines.
-/

/-! ## Part 1: the tool-call delta accumulator -/

/-- The `function` sub-record of a streamed tool-call fragment, and equally the
`"functions"` sub-dict of an accumulator slot: a running `arguments` string and
an optional `name`.  (The code uses the same `{"arguments": ..., "name": ...}`
shape for both.) -/
structure Functions where
  arguments : String
  name : Option String
deriving DecidableEq, Repr

/-- One streamed tool-call fragment (one element of the `tools` list consumed by
`tool_list_to_tool_obj`): an `index` identifying the in-progress call, an
optional `id`, the nested function delta, and an optional `type`. -/
structure ToolCallFragment where
  index : Nat
  id : Option String
  function : Functions
  type : Option String
deriving DecidableEq, Repr

/-- An accumulator slot: the value stored in `tool_calls_dict` for one index,
`{"id": ..., "functions": {"arguments": ..., "name": ...}, "type": ...}`. -/
structure Slot where
  id : Option String
  functions : Functions
  type : Option String
deriving DecidableEq, Repr

/-- The `defaultdict` default factory:
`{"id": None, "functions": {"arguments": "", "name": None}, "type": None}`. -/
def defaultSlot : Slot :=
  { id := none, functions := { arguments := "", name := none }, type := none }

/-- The effect of one loop iteration of `tool_list_to_tool_obj` on the slot for
`tool_call.index`: set `id` when the fragment's `id` is non-null, set the
function name when non-null, always append the arguments chunk, and set `type`
when non-null. -/
def applyFrag (s : Slot) (tc : ToolCallFragment) : Slot :=
  { id := match tc.id with | some v => some v | none => s.id
    functions :=
      { arguments := s.functions.arguments ++ tc.function.arguments
        name := match tc.function.name with | some v => some v | none => s.functions.name }
    type := match tc.type with | some v => some v | none => s.type }

/-- One loop iteration of `tool_list_to_tool_obj` on the whole `tool_calls_dict`
state.  The Python `defaultdict` is modelled as an insertion-ordered association
list: indexing an existing key updates it in place, indexing a fresh key appends
a freshly-created default slot (Python dicts preserve insertion order). -/
def accumStep (st : List (Nat × Slot)) (tc : ToolCallFragment) : List (Nat × Slot) :=
  if st.any (fun p => p.1 == tc.index) then
    st.map (fun p => if p.1 == tc.index then (p.1, applyFrag p.2 tc) else p)
  else
    st ++ [(tc.index, applyFrag defaultSlot tc)]

/-- `tool_list_to_tool_obj` from `05_finance_stock/stock_info_streamlit.py`:
fold the fragment stream through the `defaultdict`, then return
`list(tool_calls_dict.values())` (the `{"tool_calls": ...}` wrapper is the
returned list). -/
def tool_list_to_tool_obj (ts : List ToolCallFragment) : List Slot :=
  (ts.foldl accumStep []).map Prod.snd

/-- The slot the accumulator builds for index `i`: the fold of `applyFrag` over
exactly the fragments whose `index` is `i`, in arrival order, starting from the
default slot. -/
def slotFor (ts : List ToolCallFragment) (i : Nat) : Slot :=
  (ts.filter (fun tc => tc.index == i)).foldl applyFrag defaultSlot

/-- The distinct values of a list in order of first appearance (the key order of
an insertion-ordered dict built by indexing the keys in sequence). -/
def distinctFirst (l : List Nat) : List Nat :=
  l.foldl (fun acc a => if a ∈ acc then acc else acc ++ [a]) []

/-- Concatenation of a list of strings in order. -/
def concatAll : List String → String
  | [] => ""
  | s :: r => s ++ concatAll r

/-- Last-write-wins resolution of a sequence of optional field values: the last
`some` in the list, if any. -/
def lastSome (l : List (Option String)) : Option String :=
  l.foldl (fun acc o => match o with | some v => some v | none => acc) none

/-- Replace a fragment's arguments chunk by its image under `f`, leaving every
other field unchanged. -/
def mapArgs (f : String → String) (tc : ToolCallFragment) : ToolCallFragment :=
  { tc with function := { tc.function with arguments := f tc.function.arguments } }

/-- Erase a slot's concatenated arguments, leaving every other field. -/
def stripArgs (s : Slot) : Slot :=
  { s with functions := { s.functions with arguments := "" } }

/-- Modelled from the spec: "Output: the list of slots in ascending `index`
order".  The claimed output of the accumulator, for comparison with the actual
insertion-ordered output of `tool_list_to_tool_obj`. -/
def ascendingOrderSpec (ts : List ToolCallFragment) : List Slot :=
  ((distinctFirst (ts.map (fun tc => tc.index))).insertionSort (· ≤ ·)).map (slotFor ts)

/-! ### Basic lemmas about `distinctFirst` -/

theorem distinctFirst_foldl_mem (l : List Nat) :
    ∀ (acc : List Nat) (x : Nat),
      x ∈ l.foldl (fun acc a => if a ∈ acc then acc else acc ++ [a]) acc ↔ x ∈ acc ∨ x ∈ l := by
  induction l with
  | nil => intro acc x; simp
  | cons a l ih =>
      intro acc x
      simp only [List.foldl_cons, ih, List.mem_cons]
      by_cases ha : a ∈ acc
      · simp only [if_pos ha]
        constructor
        · rintro (h | h)
          · exact Or.inl h
          · exact Or.inr (Or.inr h)
        · rintro (h | h | h)
          · exact Or.inl h
          · exact Or.inl (h ▸ ha)
          · exact Or.inr h
      · simp only [if_neg ha, List.mem_append, List.mem_singleton]
        tauto

theorem mem_distinctFirst (l : List Nat) (x : Nat) :
    x ∈ distinctFirst l ↔ x ∈ l := by
  unfold distinctFirst
  rw [distinctFirst_foldl_mem]
  simp

theorem distinctFirst_append_single (l : List Nat) (a : Nat) :
    distinctFirst (l ++ [a]) =
      if a ∈ distinctFirst l then distinctFirst l else distinctFirst l ++ [a] := by
  unfold distinctFirst
  rw [List.foldl_append]
  rfl

theorem distinctFirst_foldl_nodup (l : List Nat) :
    ∀ acc : List Nat, acc.Nodup →
      (l.foldl (fun acc a => if a ∈ acc then acc else acc ++ [a]) acc).Nodup := by
  induction l with
  | nil => intro acc h; simpa using h
  | cons a l ih =>
      intro acc h
      simp only [List.foldl_cons]
      by_cases ha : a ∈ acc
      · rw [if_pos ha]; exact ih acc h
      · rw [if_neg ha]
        refine ih _ ?_
        simp [List.nodup_append, h, ha]

theorem nodup_distinctFirst (l : List Nat) : (distinctFirst l).Nodup :=
  distinctFirst_foldl_nodup l [] List.nodup_nil

/-! ### Per-index fold lemmas -/

theorem slotFor_nil (i : Nat) : slotFor [] i = defaultSlot := rfl

theorem slotFor_append_single (ts : List ToolCallFragment) (t : ToolCallFragment) (i : Nat) :
    slotFor (ts ++ [t]) i =
      if t.index == i then applyFrag (slotFor ts i) t else slotFor ts i := by
  unfold slotFor
  rw [List.filter_append, List.foldl_append]
  by_cases h : (t.index == i) = true
  · simp [List.filter_cons, h]
  · simp [List.filter_cons, h]

theorem slotFor_eq_default_of_not_mem (ts : List ToolCallFragment) (i : Nat)
    (h : i ∉ ts.map (fun tc => tc.index)) : slotFor ts i = defaultSlot := by
  unfold slotFor
  have hf : ts.filter (fun tc => tc.index == i) = [] := by
    rw [List.filter_eq_nil_iff]
    intro tc htc hbeq
    exact h (List.mem_map.mpr ⟨tc, htc, by simpa using hbeq⟩)
  rw [hf]
  rfl

theorem foldl_applyFrag_id (l : List ToolCallFragment) :
    ∀ s : Slot, (l.foldl applyFrag s).id =
      l.foldl (fun acc tc => match tc.id with | some v => some v | none => acc) s.id := by
  induction l with
  | nil => intro s; rfl
  | cons t l ih => intro s; rw [List.foldl_cons, List.foldl_cons, ih]; rfl

theorem foldl_applyFrag_name (l : List ToolCallFragment) :
    ∀ s : Slot, (l.foldl applyFrag s).functions.name =
      l.foldl (fun acc tc => match tc.function.name with | some v => some v | none => acc)
        s.functions.name := by
  induction l with
  | nil => intro s; rfl
  | cons t l ih => intro s; rw [List.foldl_cons, List.foldl_cons, ih]; rfl

theorem foldl_applyFrag_type (l : List ToolCallFragment) :
    ∀ s : Slot, (l.foldl applyFrag s).type =
      l.foldl (fun acc tc => match tc.type with | some v => some v | none => acc) s.type := by
  induction l with
  | nil => intro s; rfl
  | cons t l ih => intro s; rw [List.foldl_cons, List.foldl_cons, ih]; rfl

theorem foldl_applyFrag_arguments (l : List ToolCallFragment) :
    ∀ s : Slot, (l.foldl applyFrag s).functions.arguments =
      s.functions.arguments ++ concatAll (l.map (fun tc => tc.function.arguments)) := by
  induction l with
  | nil => intro s; simp [concatAll, String.append_empty]
  | cons t l ih =>
      intro s
      rw [List.foldl_cons, List.map_cons, ih]
      show (s.functions.arguments ++ t.function.arguments) ++ _ = _
      rw [String.append_assoc]
      rfl

theorem slotFor_arguments (ts : List ToolCallFragment) (i : Nat) :
    (slotFor ts i).functions.arguments =
      concatAll ((ts.filter (fun tc => tc.index == i)).map (fun tc => tc.function.arguments)) := by
  unfold slotFor
  rw [foldl_applyFrag_arguments]
  exact String.empty_append _

theorem slotFor_id_lastSome (ts : List ToolCallFragment) (i : Nat) :
    (slotFor ts i).id = lastSome ((ts.filter (fun tc => tc.index == i)).map (fun tc => tc.id)) := by
  unfold slotFor lastSome
  rw [foldl_applyFrag_id, List.foldl_map]
  rfl

theorem slotFor_name_lastSome (ts : List ToolCallFragment) (i : Nat) :
    (slotFor ts i).functions.name =
      lastSome ((ts.filter (fun tc => tc.index == i)).map (fun tc => tc.function.name)) := by
  unfold slotFor lastSome
  rw [foldl_applyFrag_name, List.foldl_map]
  rfl

theorem slotFor_type_lastSome (ts : List ToolCallFragment) (i : Nat) :
    (slotFor ts i).type =
      lastSome ((ts.filter (fun tc => tc.index == i)).map (fun tc => tc.type)) := by
  unfold slotFor lastSome
  rw [foldl_applyFrag_type, List.foldl_map]
  rfl

/-! ### The main characterization of the accumulator state -/

theorem accum_state_spec (ts : List ToolCallFragment) :
    ts.foldl accumStep [] =
      (distinctFirst (ts.map (fun tc => tc.index))).map (fun i => (i, slotFor ts i)) := by
  induction ts using List.reverseRecOn with
  | nil => rfl
  | append_singleton ts t ih =>
      rw [List.foldl_append, List.foldl_cons, List.foldl_nil, ih, List.map_append]
      simp only [List.map_cons, List.map_nil]
      rw [distinctFirst_append_single]
      by_cases hmem : t.index ∈ ts.map (fun tc => tc.index)
      · have hd : t.index ∈ distinctFirst (ts.map fun tc => tc.index) :=
          (mem_distinctFirst _ _).mpr hmem
        rw [if_pos hd]
        unfold accumStep
        have hany :
            ((distinctFirst (ts.map fun tc => tc.index)).map
              (fun i => (i, slotFor ts i))).any (fun p => p.1 == t.index) = true := by
          rw [List.any_eq_true]
          exact ⟨(t.index, slotFor ts t.index), List.mem_map_of_mem _ hd, by simp⟩
        rw [if_pos hany, List.map_map]
        apply List.map_congr_left
        intro i _
        simp only [Function.comp]
        rw [slotFor_append_single]
        by_cases hit : i = t.index
        · subst hit; simp
        · have h1 : (i == t.index) = false := by simpa using hit
          have h2 : (t.index == i) = false := by simpa using Ne.symm hit
          rw [h1, h2]
          simp
      · have hd : t.index ∉ distinctFirst (ts.map fun tc => tc.index) := fun h =>
          hmem ((mem_distinctFirst _ _).mp h)
        rw [if_neg hd]
        unfold accumStep
        have hany :
            ((distinctFirst (ts.map fun tc => tc.index)).map
              (fun i => (i, slotFor ts i))).any (fun p => p.1 == t.index) = false := by
          rw [List.any_eq_false]
          intro p hp
          obtain ⟨i, hi, rfl⟩ := List.mem_map.mp hp
          simp only [beq_iff_eq]
          intro hcontra
          exact hd (hcontra ▸ hi)
        rw [if_neg (by simp [hany])]
        rw [List.map_append]
        congr 1
        · apply List.map_congr_left
          intro i hi
          rw [slotFor_append_single]
          have hne : (t.index == i) = false := by
            simp only [beq_eq_false_iff_ne, ne_eq]
            intro hcontra
            exact hd (hcontra ▸ hi)
          rw [hne]
          simp
        · simp only [List.map_cons, List.map_nil]
          rw [slotFor_append_single]
          simp only [beq_self_eq_true, if_true]
          rw [slotFor_eq_default_of_not_mem ts t.index hmem]

theorem accum_characterization (ts : List ToolCallFragment) :
    tool_list_to_tool_obj ts =
      (distinctFirst (ts.map (fun tc => tc.index))).map (slotFor ts) := by
  unfold tool_list_to_tool_obj
  rw [accum_state_spec, List.map_map]
  rfl

/-! ### Last-write-wins lemmas -/

theorem lastSome_foldl_gen (l : List (Option String)) :
    ∀ a : Option String,
      l.foldl (fun acc o => match o with | some v => some v | none => acc) a =
        match lastSome l with | some v => some v | none => a := by
  induction l with
  | nil => intro a; rfl
  | cons o l ih =>
      intro a
      have h1 : lastSome (o :: l) =
          List.foldl (fun acc o => match o with | some v => some v | none => acc)
            (match o with | some v => some v | none => none) l := rfl
      rw [List.foldl_cons, ih, h1, ih]
      cases hl : lastSome l with
      | some v => rfl
      | none => cases o <;> rfl

theorem lastSome_of_filterMap_nil (l : List (Option String))
    (h : l.filterMap id = []) : lastSome l = none := by
  induction l with
  | nil => rfl
  | cons o l ih =>
      cases o with
      | some u => simp [List.filterMap_cons] at h
      | none =>
          simp only [List.filterMap_cons, id] at h
          have := ih h
          unfold lastSome
          rw [List.foldl_cons, lastSome_foldl_gen, this]

theorem lastSome_of_filterMap_singleton (l : List (Option String)) (v : String)
    (h : l.filterMap id = [v]) : lastSome l = some v := by
  induction l with
  | nil => simp [List.filterMap_nil] at h
  | cons o l ih =>
      cases o with
      | some u =>
          simp only [List.filterMap_cons, id, List.cons.injEq] at h
          obtain ⟨rfl, hnil⟩ := h
          unfold lastSome
          rw [List.foldl_cons, lastSome_foldl_gen, lastSome_of_filterMap_nil l hnil]
      | none =>
          simp only [List.filterMap_cons, id] at h
          have := ih h
          unfold lastSome
          rw [List.foldl_cons, lastSome_foldl_gen, this]

/-! ### Argument-content opacity lemmas -/

theorem filter_mapArgs (f : String → String) (ts : List ToolCallFragment) (i : Nat) :
    (ts.map (mapArgs f)).filter (fun tc => tc.index == i) =
      (ts.filter (fun tc => tc.index == i)).map (mapArgs f) := by
  rw [List.filter_map]
  rfl

theorem stripArgs_applyFrag (f : String → String) (s1 s2 : Slot) (t : ToolCallFragment)
    (h : stripArgs s1 = stripArgs s2) :
    stripArgs (applyFrag s1 (mapArgs f t)) = stripArgs (applyFrag s2 t) := by
  obtain ⟨id1, ⟨a1, n1⟩, ty1⟩ := s1
  obtain ⟨id2, ⟨a2, n2⟩, ty2⟩ := s2
  simp only [stripArgs, applyFrag, mapArgs, Slot.mk.injEq, Functions.mk.injEq] at h ⊢
  obtain ⟨h1, ⟨-, h2⟩, h3⟩ := h
  subst h1; subst h2; subst h3
  simp

theorem stripArgs_foldl (f : String → String) (l : List ToolCallFragment) :
    ∀ s1 s2 : Slot, stripArgs s1 = stripArgs s2 →
      stripArgs ((l.map (mapArgs f)).foldl applyFrag s1) =
        stripArgs (l.foldl applyFrag s2) := by
  induction l with
  | nil => intro s1 s2 h; simpa using h
  | cons t l ih =>
      intro s1 s2 h
      rw [List.map_cons, List.foldl_cons, List.foldl_cons]
      exact ih _ _ (stripArgs_applyFrag f s1 s2 t h)

theorem stripArgs_slotFor (f : String → String) (ts : List ToolCallFragment) (i : Nat) :
    stripArgs (slotFor (ts.map (mapArgs f)) i) = stripArgs (slotFor ts i) := by
  unfold slotFor
  rw [filter_mapArgs]
  exact stripArgs_foldl f _ _ _ rfl

theorem indices_mapArgs (f : String → String) (ts : List ToolCallFragment) :
    (ts.map (mapArgs f)).map (fun tc => tc.index) = ts.map (fun tc => tc.index) := by
  rw [List.map_map]
  rfl

/-! ### Claim theorems for the accumulator -/

/-- C1: for every fragment stream, the accumulator produces one descriptor per
distinct index, and the descriptor of index `i` has as its arguments string the
concatenation, in arrival order, of exactly the argument chunks of the
fragments with index `i` — fragments of other indices never contaminate it
(the slot of index `i` is a function of the fragments with index `i` alone).
A concrete two-fragment stream shows that permuting the fragments of one index
changes the concatenation, so arrival order is preserved. -/
theorem accum_args_concat_per_index :
    (∀ ts : List ToolCallFragment,
        tool_list_to_tool_obj ts
            = (distinctFirst (ts.map (fun tc => tc.index))).map (slotFor ts)
        ∧ (∀ i : Nat, (slotFor ts i).functions.arguments
            = concatAll ((ts.filter (fun tc => tc.index == i)).map
                (fun tc => tc.function.arguments)))
        ∧ (∀ i : Nat, slotFor ts i = slotFor (ts.filter (fun tc => tc.index == i)) i))
    ∧ tool_list_to_tool_obj
          [⟨0, none, ⟨"ab", none⟩, none⟩, ⟨0, none, ⟨"cd", none⟩, none⟩]
        ≠ tool_list_to_tool_obj
          [⟨0, none, ⟨"cd", none⟩, none⟩, ⟨0, none, ⟨"ab", none⟩, none⟩] := by
  refine ⟨fun ts => ⟨accum_characterization ts, slotFor_arguments ts, fun i => ?_⟩, by decide⟩
  unfold slotFor
  rw [List.filter_filter]
  congr 1
  apply List.filter_congr
  intro tc _
  simp [Bool.and_self]

/-- C2 is false on the code: the returned list is in insertion order of the
`defaultdict`, i.e. order of first appearance of each index, not ascending
index order.  On a stream whose index 1 fragment arrives before its index 0
fragment the output is the index-1 slot first, while the ascending-order
reading of the spec demands the index-0 slot first. -/
theorem accum_output_not_ascending_counterexample :
    tool_list_to_tool_obj
        [⟨1, some "b", ⟨"", none⟩, none⟩, ⟨0, some "a", ⟨"", none⟩, none⟩]
      = [⟨some "b", ⟨"", none⟩, none⟩, ⟨some "a", ⟨"", none⟩, none⟩]
    ∧ ascendingOrderSpec
        [⟨1, some "b", ⟨"", none⟩, none⟩, ⟨0, some "a", ⟨"", none⟩, none⟩]
      = [⟨some "a", ⟨"", none⟩, none⟩, ⟨some "b", ⟨"", none⟩, none⟩]
    ∧ tool_list_to_tool_obj
        [⟨1, some "b", ⟨"", none⟩, none⟩, ⟨0, some "a", ⟨"", none⟩, none⟩]
      ≠ ascendingOrderSpec
        [⟨1, some "b", ⟨"", none⟩, none⟩, ⟨0, some "a", ⟨"", none⟩, none⟩] := by
  refine ⟨by decide, by decide, by decide⟩

/-- C2 (amended): for every input sequence of tool-call fragments, the list of
descriptors returned by the accumulator is ordered by first appearance of each
index value in the stream (which coincides with ascending index order exactly
when indices make their first appearances in ascending order). -/
theorem accum_output_first_appearance_order :
    ∀ ts : List ToolCallFragment,
      tool_list_to_tool_obj ts
        = (distinctFirst (ts.map (fun tc => tc.index))).map (slotFor ts) :=
  accum_characterization

/-- C3: the output has exactly one descriptor per distinct index value of the
input and no others (the output is the map of the slot construction over the
duplicate-free list of exactly the indices occurring in the input); the empty
input yields the empty list; and a single fragment carrying an empty arguments
chunk and a function name still produces its descriptor, with empty
arguments. -/
theorem accum_one_slot_per_distinct_index :
    (∀ ts : List ToolCallFragment,
        tool_list_to_tool_obj ts
            = (distinctFirst (ts.map (fun tc => tc.index))).map (slotFor ts)
        ∧ (distinctFirst (ts.map (fun tc => tc.index))).Nodup
        ∧ ∀ i : Nat,
            i ∈ distinctFirst (ts.map (fun tc => tc.index)) ↔ i ∈ ts.map (fun tc => tc.index))
    ∧ tool_list_to_tool_obj [] = []
    ∧ tool_list_to_tool_obj [⟨0, some "id0", ⟨"", some "f"⟩, some "function"⟩]
        = [⟨some "id0", ⟨"", some "f"⟩, some "function"⟩] :=
  ⟨fun ts => ⟨accum_characterization ts, nodup_distinctFirst _, fun i => mem_distinctFirst _ i⟩,
    rfl, by decide⟩

/-- C4: if, among the fragments of index `i`, exactly one carries a non-null
`id` (value `v`) and exactly one carries a non-null function name (value `w`),
the accumulated slot for `i` has `id = some v` and `name = some w`; a field
(here `type`) carried by no fragment of the index stays null; and the slot is
one of the returned descriptors. -/
theorem accum_sparse_field_propagation
    (ts : List ToolCallFragment) (i : Nat) (v w : String)
    (hid : (ts.filter (fun tc => tc.index == i)).filterMap (fun tc => tc.id) = [v])
    (hname : (ts.filter (fun tc => tc.index == i)).filterMap (fun tc => tc.function.name) = [w]) :
    (slotFor ts i).id = some v
    ∧ (slotFor ts i).functions.name = some w
    ∧ ((ts.filter (fun tc => tc.index == i)).filterMap (fun tc => tc.type) = []
        → (slotFor ts i).type = none)
    ∧ slotFor ts i ∈ tool_list_to_tool_obj ts := by
  have hmapid : ((ts.filter (fun tc => tc.index == i)).map (fun tc => tc.id)).filterMap id
      = [v] := by
    rw [List.filterMap_map]; exact hid
  have hmapname :
      ((ts.filter (fun tc => tc.index == i)).map (fun tc => tc.function.name)).filterMap id
        = [w] := by
    rw [List.filterMap_map]; exact hname
  refine ⟨?_, ?_, ?_, ?_⟩
  · rw [slotFor_id_lastSome]
    exact lastSome_of_filterMap_singleton _ v hmapid
  · rw [slotFor_name_lastSome]
    exact lastSome_of_filterMap_singleton _ w hmapname
  · intro htype
    rw [slotFor_type_lastSome]
    apply lastSome_of_filterMap_nil
    rw [List.filterMap_map]
    exact htype
  · have hne : ts.filter (fun tc => tc.index == i) ≠ [] := by
      intro h
      rw [h] at hid
      simp at hid
    obtain ⟨tc, htc⟩ := List.exists_mem_of_ne_nil _ hne
    have hmem : i ∈ ts.map (fun tc => tc.index) := by
      refine List.mem_map.mpr ⟨tc, List.mem_of_mem_filter htc, ?_⟩
      simpa using List.of_mem_filter htc
    rw [accum_characterization]
    exact List.mem_map_of_mem _ ((mem_distinctFirst _ i).mpr hmem)

/-- A concrete two-fragment stream for index 0 whose `id` arrives only on the
first fragment and whose function name arrives only on the second. -/
def sparseExample : List ToolCallFragment :=
  [⟨0, some "id0", ⟨"a", none⟩, none⟩, ⟨0, none, ⟨"b", some "f"⟩, none⟩]

/-- C4 witness: the sparse-field theorem applied to `sparseExample`. -/
theorem accum_sparse_field_propagation_witness :
    (slotFor sparseExample 0).id = some "id0"
    ∧ (slotFor sparseExample 0).functions.name = some "f"
    ∧ ((sparseExample.filter (fun tc => tc.index == 0)).filterMap (fun tc => tc.type) = []
        → (slotFor sparseExample 0).type = none)
    ∧ slotFor sparseExample 0 ∈ tool_list_to_tool_obj sparseExample :=
  accum_sparse_field_propagation sparseExample 0 "id0" "f" (by decide) (by decide)

/-- C5: the accumulator is a total pure string/field reducer that performs no
JSON parsing or validation: it is defined (in particular returns a value) for
every fragment stream, including streams whose argument chunks are malformed or
incomplete JSON, and everything about its output except the concatenated
arguments strings is invariant under replacing every argument chunk by its
image under an arbitrary string transformation — the chunks flow through
opaquely, by concatenation alone. -/
theorem accum_total_pure_reducer :
    ∀ (ts : List ToolCallFragment) (f : String → String),
      (tool_list_to_tool_obj (ts.map (mapArgs f))).map stripArgs
          = (tool_list_to_tool_obj ts).map stripArgs
      ∧ ∀ i : Nat,
          (slotFor (ts.map (mapArgs f)) i).functions.arguments
            = concatAll ((ts.filter (fun tc => tc.index == i)).map
                (fun tc => f tc.function.arguments)) := by
  intro ts f
  constructor
  · rw [accum_characterization, accum_characterization, indices_mapArgs,
      List.map_map, List.map_map]
    apply List.map_congr_left
    intro i _
    exact stripArgs_slotFor f ts i
  · intro i
    rw [slotFor_arguments, filter_mapArgs, List.map_map]
    rfl

/-- C10: the accumulator resolves repeated non-null `id`, function-name and
`type` values by last-write-wins: the slot field equals the last non-null value
among the index's fragments in arrival order, unconditionally overwriting
earlier non-null values (shown concretely by a stream that sets `id` twice). -/
theorem accum_last_write_wins :
    (∀ (ts : List ToolCallFragment) (i : Nat),
        (slotFor ts i).id
            = lastSome ((ts.filter (fun tc => tc.index == i)).map (fun tc => tc.id))
        ∧ (slotFor ts i).functions.name
            = lastSome ((ts.filter (fun tc => tc.index == i)).map (fun tc => tc.function.name))
        ∧ (slotFor ts i).type
            = lastSome ((ts.filter (fun tc => tc.index == i)).map (fun tc => tc.type)))
    ∧ slotFor [⟨0, some "x", ⟨"", none⟩, none⟩, ⟨0, some "y", ⟨"", none⟩, none⟩] 0
        = ⟨some "y", ⟨"", none⟩, none⟩ :=
  ⟨fun ts i => ⟨slotFor_id_lastSome ts i, slotFor_name_lastSome ts i, slotFor_type_lastSome ts i⟩,
    by decide⟩

/-! ## Part 2: the message-tree renderer (`utils/messages.py`)

The renderer consumes arbitrary nested Python values.  The values the Python
code distinguishes by runtime introspection are modelled as a closed inductive:
mappings (`dict`, ordered key/value pairs), sequences (`list`), attributed
objects (anything exposing a `__dict__` attribute view), and the primitives
(strings, integers, booleans, `None`).  Printing is modelled by returning the
list of printed lines. -/

inductive PyVal where
  | vstr : String → PyVal
  | vint : Int → PyVal
  | vbool : Bool → PyVal
  | vnone : PyVal
  | vdict : List (String × PyVal) → PyVal
  | vlist : List PyVal → PyVal
  | vobj : List (String × PyVal) → PyVal

/-- `isinstance(value, (dict, list))`. -/
def isDictOrList : PyVal → Bool
  | .vdict _ => true
  | .vlist _ => true
  | _ => false

/-- `hasattr(value, "__dict__")`: true exactly for attributed objects (none of
`dict`, `list`, `str`, `int`, `bool`, `None` has a `__dict__`). -/
def hasDunderDict : PyVal → Bool
  | .vobj _ => true
  | _ => false

mutual
/-- Python `repr()`-like stringification, to the extent the renderer can
observe it.  `repr` escaping inside nested containers and the address-bearing
default `str()` of objects are not modelled (the renderer never reaches
either: the single-line branch is guarded by `is_terminal_dict`, whose values
are all primitives, and an attributed object at the root prints nothing
because the root call passes no label). -/
def pyRepr : PyVal → String
  | .vstr s => "'" ++ s ++ "'"
  | .vint n => toString n
  | .vbool b => if b then "True" else "False"
  | .vnone => "None"
  | .vdict ps => "\x7b" ++ pyReprPairs ps ++ "\x7d"
  | .vlist xs => "[" ++ pyReprList xs ++ "]"
  | .vobj _ => "<object>"

def pyReprPairs : List (String × PyVal) → String
  | [] => ""
  | [(k, v)] => "'" ++ k ++ "': " ++ pyRepr v
  | (k, v) :: p :: rest => "'" ++ k ++ "': " ++ pyRepr v ++ ", " ++ pyReprPairs (p :: rest)

def pyReprList : List PyVal → String
  | [] => ""
  | [v] => pyRepr v
  | v :: w :: rest => pyRepr v ++ ", " ++ pyReprList (w :: rest)
end

/-- Python `str()`: identity on strings, `repr`-like on everything else the
renderer can reach (for `int`, `bool` and `None`, `str` and `repr` agree). -/
def pyStr : PyVal → String
  | .vstr s => s
  | v => pyRepr v

/-- `is_terminal_dict` from `utils/messages.py`: `data` is a dict and no value
in it is a dict, a list, or an object with a `__dict__`. -/
def is_terminal_dict : PyVal → Bool
  | .vdict ps => ps.all (fun p => !(isDictOrList p.2 || hasDunderDict p.2))
  | _ => false

/-- `format_terminal_dict` from `utils/messages.py`: double-quoted keys, string
values double-quoted, non-string values in default stringification, joined by
", " inside braces. -/
def format_terminal_dict (ps : List (String × PyVal)) : String :=
  "\x7b" ++ String.intercalate ", "
      (ps.map (fun p =>
        match p.2 with
        | .vstr s => "\"" ++ p.1 ++ "\": \"" ++ s ++ "\""
        | v => "\"" ++ p.1 ++ "\": " ++ pyStr v))
    ++ "\x7d"

/-- Spec-side leaf test: a value that is neither a mapping, nor a sequence, nor
a value exposing an attribute view. -/
def isLeafValue : PyVal → Bool
  | .vdict _ => false
  | .vlist _ => false
  | .vobj _ => false
  | _ => true

/-- `" " * indent * 4`: four spaces of indentation per depth level. -/
def spacingStr (indent : Nat) : String :=
  String.mk (List.replicate (indent * 4) ' ')

/-- `DEPTH_COLORS.get(key, DEPTH_COLORS["default"])`: the fixed five-entry ANSI
palette for keys 1..5 and the default colour (equal to the key-1 entry) for
every other key. -/
def depthColorsGet (key : Nat) : String :=
  if key = 1 then "\x1b[96m"
  else if key = 2 then "\x1b[93m"
  else if key = 3 then "\x1b[94m"
  else if key = 4 then "\x1b[95m"
  else if key = 5 then "\x1b[92m"
  else "\x1b[96m"

/-- `DEPTH_COLORS["reset"]`. -/
def colorReset : String := "\x1b[0m"

/-- One labelled output line of `_display_message_tree`:
`f"{spacing}{color}{label}{reset}{rest}"` where `spacing` and `color` belong to
the printing call's `indent` and `rest` is `":"`, `": <value>"`, or
`": <formatted terminal dict>"`. -/
def labelLine (indent : Nat) (label rest : String) : String :=
  spacingStr indent ++ depthColorsGet (indent + 1) ++ label ++ colorReset ++ rest

/-- One list-index marker line of `_display_message_tree`:
`f"{spacing}    {color}index [{i}]{reset}"` — the printing call's `spacing`
plus four further literal spaces, with the printing call's colour token. -/
def markerLine (indent i : Nat) : String :=
  spacingStr indent ++ "    " ++ depthColorsGet (indent + 1)
    ++ "index [" ++ toString i ++ "]" ++ colorReset

/-- The display string of a primitive in the final `else` branch:
`f'"{data}"' if isinstance(data, str) else str(data)`. -/
def pyDisplay : PyVal → String
  | .vstr s => "\"" ++ s ++ "\""
  | v => pyStr v

mutual
/-- `_display_message_tree` from `utils/messages.py`, returning the list of
printed lines.  Branch order follows the source: `dict` first, then `list`,
then `hasattr(data, "__dict__") and not is_root`, then the primitive `else`.
The source's recursive call on `data.__dict__` (a dict passed with no label,
not root, at the same `indent`) immediately iterates the dict's pairs at
`indent + 1`; that one deterministic step is inlined here as
`_display_children fields (indent + 1)` so the recursion is structural (the
equation `render_vobj_flattens` below recovers the source's phrasing). -/
def _display_message_tree (data : PyVal) (indent : Nat) (node : Option String)
    (is_root : Bool) : List String :=
  match data with
  | .vdict ps =>
    match is_root, node with
    | false, some n =>
      if is_terminal_dict (.vdict ps) then
        [labelLine indent n (": " ++ format_terminal_dict ps)]
      else
        labelLine indent n ":" :: _display_children ps (indent + 1)
    | _, _ => _display_children ps (indent + 1)
  | .vlist xs =>
    (match is_root, node with
     | false, some n => [labelLine indent n ":"]
     | _, _ => []) ++ _display_items xs indent 0
  | .vobj fields =>
    if is_root then
      match node with
      | some n => [labelLine indent n (": " ++ pyDisplay (.vobj fields))]
      | none => []
    else
      (match node with
       | some n => [labelLine indent n ":"]
       | none => []) ++ _display_children fields (indent + 1)
  | v =>
    match node with
    | some n => [labelLine indent n (": " ++ pyDisplay v)]
    | none => []

/-- The dict branch's `for key, value in data.items():
_display_message_tree(value, indent + 1, key)`, with `indent` here already the
children's depth. -/
def _display_children (ps : List (String × PyVal)) (indent : Nat) : List String :=
  match ps with
  | [] => []
  | (k, v) :: rest =>
      _display_message_tree v indent (some k) false ++ _display_children rest indent

/-- The list branch's `for index, item in enumerate(data):` loop: an
`index [i]` marker, then the item rendered at `indent + 1` with no label. -/
def _display_items (xs : List PyVal) (indent : Nat) (i : Nat) : List String :=
  match xs with
  | [] => []
  | x :: rest =>
      markerLine indent i ::
        (_display_message_tree x (indent + 1) none false ++ _display_items rest indent (i + 1))
end

/-- `display_message_tree`, the public entry point: the root call with no label.
(The `isinstance(message, BaseMessage)` branch passes `message.__dict__`, i.e.
a `PyVal.vdict`, as `data`; either way the call is
`_display_message_tree(data, is_root=True)`.) -/
def display_message_tree (message : PyVal) : List String :=
  _display_message_tree message 0 none true

/-! ### Unfolding lemmas for the renderer -/

theorem display_children_eq_flatMap (ps : List (String × PyVal)) (d : Nat) :
    _display_children ps d =
      ps.flatMap (fun p => _display_message_tree p.2 d (some p.1) false) := by
  induction ps with
  | nil => rfl
  | cons p rest ih =>
      obtain ⟨k, v⟩ := p
      rw [List.flatMap_cons, ← ih]
      rfl

theorem display_items_eq_enumFrom (xs : List PyVal) (d : Nat) :
    ∀ i : Nat,
      _display_items xs d i =
        (List.enumFrom i xs).flatMap
          (fun p => markerLine d p.1 :: _display_message_tree p.2 (d + 1) none false) := by
  induction xs with
  | nil => intro i; rfl
  | cons x rest ih =>
      intro i
      rw [List.enumFrom_cons, List.flatMap_cons, ← ih]
      rfl

theorem is_terminal_dict_eq_leaf (ps : List (String × PyVal)) :
    is_terminal_dict (PyVal.vdict ps) = ps.all (fun p => isLeafValue p.2) := by
  show ps.all _ = ps.all _
  congr 1
  funext p
  obtain ⟨k, v⟩ := p
  cases v <;> rfl

/-! ### Claim theorems for the renderer -/

/-- C6: a mapping reached at a non-root position with a label renders as one
single line `<label>: {...}` exactly when it is a leaf mapping — every value
neither a mapping, nor a sequence, nor an attribute-view-exposing object —
with entries in iteration order, string values double-quoted and non-string
values in default stringification; otherwise it renders a header line with the
label and recurses into each key/value pair at depth + 1 with the key as the
child's label. -/
theorem render_leaf_vs_branch_mapping :
    ∀ (ps : List (String × PyVal)) (d : Nat) (n : String),
      (_display_message_tree (PyVal.vdict ps) d (some n) false
          = if is_terminal_dict (PyVal.vdict ps) then
              [labelLine d n (": " ++ format_terminal_dict ps)]
            else
              labelLine d n ":"
                :: ps.flatMap (fun p => _display_message_tree p.2 (d + 1) (some p.1) false))
      ∧ is_terminal_dict (PyVal.vdict ps) = ps.all (fun p => isLeafValue p.2)
      ∧ format_terminal_dict ps
          = "\x7b" ++ String.intercalate ", "
              (ps.map (fun p =>
                match p.2 with
                | PyVal.vstr s => "\"" ++ p.1 ++ "\": \"" ++ s ++ "\""
                | v => "\"" ++ p.1 ++ "\": " ++ pyStr v)) ++ "\x7d" := by
  intro ps d n
  refine ⟨?_, is_terminal_dict_eq_leaf ps, rfl⟩
  rw [← display_children_eq_flatMap]
  rfl

/-- C7: a sequence prints a header line with its label when one is present and
the call is not the root, then for each element in order one `index [i]` marker
belonging to the current call (the call's spacing plus four literal spaces and
the call's colour token) followed by the element rendered at depth + 1 with no
label; a primitive reached with no label prints nothing. -/
theorem render_sequence_indexing :
    ∀ (xs : List PyVal) (d : Nat) (n : String),
      (_display_message_tree (PyVal.vlist xs) d (some n) false
          = labelLine d n ":"
              :: xs.enum.flatMap
                (fun p => markerLine d p.1 :: _display_message_tree p.2 (d + 1) none false))
      ∧ (_display_message_tree (PyVal.vlist xs) d none false
          = xs.enum.flatMap
              (fun p => markerLine d p.1 :: _display_message_tree p.2 (d + 1) none false))
      ∧ (∀ s : String, _display_message_tree (PyVal.vstr s) d none false = [])
      ∧ (∀ k : Int, _display_message_tree (PyVal.vint k) d none false = [])
      ∧ (∀ b : Bool, _display_message_tree (PyVal.vbool b) d none false = [])
      ∧ _display_message_tree PyVal.vnone d none false = [] := by
  intro xs d n
  have henum : xs.enum = List.enumFrom 0 xs := rfl
  refine ⟨?_, ?_, fun s => rfl, fun k => rfl, fun b => rfl, rfl⟩
  · rw [henum, ← display_items_eq_enumFrom]
    rfl
  · rw [henum, ← display_items_eq_enumFrom]
    rfl

/-- C8: a non-root attributed object prints a header line with its label when
one is present, and then renders its attribute view as a mapping, unlabeled
and at the SAME depth as the object itself (no depth increment), so the
object's fields appear at its parent's visual level. -/
theorem render_vobj_flattens :
    ∀ (fields : List (String × PyVal)) (d : Nat) (n : String),
      (_display_message_tree (PyVal.vobj fields) d (some n) false
          = labelLine d n ":" :: _display_message_tree (PyVal.vdict fields) d none false)
      ∧ (_display_message_tree (PyVal.vobj fields) d none false
          = _display_message_tree (PyVal.vdict fields) d none false) :=
  fun _ _ _ => ⟨rfl, rfl⟩

/-! ### The line format of the renderer -/

/-- The shape of every line the renderer prints: either a labelled line
`labelLine e label rest` — `4·e` spaces, the colour token of key `e + 1`, the
label, the reset token, then the line's content — or an index-marker line
`markerLine e i` — `4·e` spaces plus four further literal spaces, the colour
token of key `e + 1`, `index [i]`, and the reset token. -/
def renderLineShape (line : String) : Prop :=
  ∃ e : Nat,
    (∃ label rest, line = labelLine e label rest) ∨ ∃ i : Nat, line = markerLine e i

theorem shape_children_of (ps : List (String × PyVal))
    (ih : ∀ p ∈ ps, ∀ (indent : Nat) (node : Option String) (is_root : Bool) (line : String),
        line ∈ _display_message_tree p.2 indent node is_root → renderLineShape line) :
    ∀ (d : Nat) (line : String), line ∈ _display_children ps d → renderLineShape line := by
  induction ps with
  | nil => intro d line h; exact absurd h (List.not_mem_nil line)
  | cons p rest ihr =>
      obtain ⟨k, v⟩ := p
      intro d line h
      have h' : line ∈ _display_message_tree v d (some k) false ++ _display_children rest d := h
      rcases List.mem_append.mp h' with h1 | h2
      · exact ih (k, v) (List.mem_cons_self _ _) d (some k) false line h1
      · exact ihr (fun q hq => ih q (List.mem_cons_of_mem _ hq)) d line h2

theorem shape_items_of (xs : List PyVal)
    (ih : ∀ x ∈ xs, ∀ (indent : Nat) (node : Option String) (is_root : Bool) (line : String),
        line ∈ _display_message_tree x indent node is_root → renderLineShape line) :
    ∀ (d i : Nat) (line : String), line ∈ _display_items xs d i → renderLineShape line := by
  induction xs with
  | nil => intro d i line h; exact absurd h (List.not_mem_nil line)
  | cons x rest ihr =>
      intro d i line h
      have h' : line ∈ markerLine d i
          :: (_display_message_tree x (d + 1) none false ++ _display_items rest d (i + 1)) := h
      rcases List.mem_cons.mp h' with h0 | h12
      · exact ⟨d, Or.inr ⟨i, h0⟩⟩
      · rcases List.mem_append.mp h12 with h1 | h2
        · exact ih x (List.mem_cons_self _ _) (d + 1) none false line h1
        · exact ihr (fun q hq => ih q (List.mem_cons_of_mem _ hq)) d (i + 1) line h2

theorem render_line_shape_aux :
    ∀ (N : Nat) (data : PyVal), sizeOf data ≤ N →
      ∀ (indent : Nat) (node : Option String) (is_root : Bool) (line : String),
        line ∈ _display_message_tree data indent node is_root → renderLineShape line := by
  intro N
  induction N using Nat.strong_induction_on with
  | h N ihN =>
    intro data hsize indent node is_root line hmem
    have ihchild : ∀ v : PyVal, sizeOf v < sizeOf data →
        ∀ (ind : Nat) (nd : Option String) (rt : Bool) (l : String),
          l ∈ _display_message_tree v ind nd rt → renderLineShape l := by
      intro v hv
      exact ihN (sizeOf v) (by omega) v le_rfl
    cases data with
    | vdict ps =>
        have ihp : ∀ p ∈ ps,
            ∀ (ind : Nat) (nd : Option String) (rt : Bool) (l : String),
              l ∈ _display_message_tree p.2 ind nd rt → renderLineShape l := by
          intro p hp
          obtain ⟨a, b⟩ := p
          apply ihchild b
          have h1 := List.sizeOf_lt_of_mem hp
          simp only [Prod.mk.sizeOf_spec] at h1
          simp only [PyVal.vdict.sizeOf_spec]
          omega
        cases is_root with
        | true => exact shape_children_of ps ihp (indent + 1) line hmem
        | false =>
            cases node with
            | none => exact shape_children_of ps ihp (indent + 1) line hmem
            | some n =>
                have e : _display_message_tree (PyVal.vdict ps) indent (some n) false
                    = if is_terminal_dict (PyVal.vdict ps) then
                        [labelLine indent n (": " ++ format_terminal_dict ps)]
                      else
                        labelLine indent n ":" :: _display_children ps (indent + 1) := rfl
                rw [e] at hmem
                by_cases hterm : is_terminal_dict (PyVal.vdict ps) = true
                · rw [if_pos hterm] at hmem
                  exact ⟨indent, Or.inl ⟨n, _, List.mem_singleton.mp hmem⟩⟩
                · rw [if_neg hterm] at hmem
                  rcases List.mem_cons.mp hmem with h0 | h1
                  · exact ⟨indent, Or.inl ⟨n, ":", h0⟩⟩
                  · exact shape_children_of ps ihp (indent + 1) line h1
    | vlist xs =>
        have ihx : ∀ x ∈ xs,
            ∀ (ind : Nat) (nd : Option String) (rt : Bool) (l : String),
              l ∈ _display_message_tree x ind nd rt → renderLineShape l := by
          intro x hx
          apply ihchild x
          have h1 := List.sizeOf_lt_of_mem hx
          simp only [PyVal.vlist.sizeOf_spec]
          omega
        cases is_root with
        | true => exact shape_items_of xs ihx indent 0 line hmem
        | false =>
            cases node with
            | none => exact shape_items_of xs ihx indent 0 line hmem
            | some n =>
                rcases List.mem_cons.mp hmem with h0 | h2
                · exact ⟨indent, Or.inl ⟨n, ":", h0⟩⟩
                · exact shape_items_of xs ihx indent 0 line h2
    | vobj fields =>
        have ihp : ∀ p ∈ fields,
            ∀ (ind : Nat) (nd : Option String) (rt : Bool) (l : String),
              l ∈ _display_message_tree p.2 ind nd rt → renderLineShape l := by
          intro p hp
          obtain ⟨a, b⟩ := p
          apply ihchild b
          have h1 := List.sizeOf_lt_of_mem hp
          simp only [Prod.mk.sizeOf_spec] at h1
          simp only [PyVal.vobj.sizeOf_spec]
          omega
        cases is_root with
        | true =>
            cases node with
            | some n =>
                exact ⟨indent,
                  Or.inl ⟨n, ": " ++ pyDisplay (PyVal.vobj fields), List.mem_singleton.mp hmem⟩⟩
            | none => exact absurd hmem (List.not_mem_nil line)
        | false =>
            cases node with
            | some n =>
                rcases List.mem_cons.mp hmem with h0 | h2
                · exact ⟨indent, Or.inl ⟨n, ":", h0⟩⟩
                · exact shape_children_of fields ihp (indent + 1) line h2
            | none => exact shape_children_of fields ihp (indent + 1) line hmem
    | vstr s =>
        cases node with
        | some n =>
            exact ⟨indent,
              Or.inl ⟨n, ": " ++ pyDisplay (PyVal.vstr s), List.mem_singleton.mp hmem⟩⟩
        | none => exact absurd hmem (List.not_mem_nil line)
    | vint k =>
        cases node with
        | some n =>
            exact ⟨indent,
              Or.inl ⟨n, ": " ++ pyDisplay (PyVal.vint k), List.mem_singleton.mp hmem⟩⟩
        | none => exact absurd hmem (List.not_mem_nil line)
    | vbool b =>
        cases node with
        | some n =>
            exact ⟨indent,
              Or.inl ⟨n, ": " ++ pyDisplay (PyVal.vbool b), List.mem_singleton.mp hmem⟩⟩
        | none => exact absurd hmem (List.not_mem_nil line)
    | vnone =>
        cases node with
        | some n =>
            exact ⟨indent, Or.inl ⟨n, ": " ++ pyDisplay PyVal.vnone, List.mem_singleton.mp hmem⟩⟩
        | none => exact absurd hmem (List.not_mem_nil line)

/-- C9 (amended): every line the renderer prints is either a labelled line —
exactly four spaces of indentation per depth level of the printing call,
followed by the colour token selected from the fixed five-entry palette by the
`depth + 1` lookup, the label, a reset token, then the line's content — or a
list-index marker line, which keeps the printing call's colour token but is
indented one extra level (the call's spacing plus four further literal
spaces); and the palette lookup saturates to the single default colour for
every key past 5 (it does not cycle mod 5). -/
theorem render_line_format :
    (∀ k : Nat, depthColorsGet (k + 6) = "\x1b[96m")
    ∧ ∀ (data : PyVal) (indent : Nat) (node : Option String) (is_root : Bool) (line : String),
        line ∈ _display_message_tree data indent node is_root → renderLineShape line := by
  constructor
  · intro k
    unfold depthColorsGet
    rw [if_neg (by omega), if_neg (by omega), if_neg (by omega), if_neg (by omega),
      if_neg (by omega)]
  · intro data indent node is_root line hmem
    exact render_line_shape_aux (sizeOf data) data le_rfl indent node is_root line hmem

/-- C9 witness: the amended line-format theorem applied to the index-marker
line printed for the first element of a root-level one-element list. -/
theorem render_line_format_witness : renderLineShape (markerLine 0 0) :=
  render_line_format.2 (PyVal.vlist [PyVal.vnone]) 0 none true (markerLine 0 0)
    (List.mem_singleton_self _)

/-- C9 counterexample: the claim's uniform per-line format is false as stated.
The index-marker line printed for a root-level list element is
`"    \x1b[96mindex [0]\x1b[0m"`: it admits no decomposition as `4·d` spaces
followed by the colour token selected by the `d + 1` palette lookup — its four
leading spaces would force `d = 1`, whose colour token is `"\x1b[93m"`, but the
line carries the depth-0 call's token `"\x1b[96m"`. -/
theorem render_line_prefix_color_counterexample :
    markerLine 0 0 ∈ display_message_tree (PyVal.vlist [PyVal.vnone])
    ∧ markerLine 0 0 = "    " ++ "\x1b[96m" ++ "index [0]" ++ "\x1b[0m"
    ∧ ¬ ∃ (d : Nat) (rest : String),
        markerLine 0 0 = spacingStr d ++ depthColorsGet (d + 1) ++ rest := by
  refine ⟨List.mem_singleton_self _, rfl, ?_⟩
  rintro ⟨d, rest, h⟩
  match d, h with
  | 0, h =>
      have hd := congrArg (fun s => s.data.take 5) h
      have hd' : ([' ', ' ', ' ', ' ', '\x1b'] : List Char)
          = ['\x1b', '[', '9', '6', 'm'] := hd
      exact absurd hd' (by decide)
  | 1, h =>
      have hd := congrArg (fun s => s.data.take 9) h
      have hd' : ([' ', ' ', ' ', ' ', '\x1b', '[', '9', '6', 'm'] : List Char)
          = [' ', ' ', ' ', ' ', '\x1b', '[', '9', '3', 'm'] := hd
      exact absurd hd' (by decide)
  | (n + 2), h =>
      have hd := congrArg (fun s => s.data.take 5) h
      simp only [String.data_append] at hd
      have hsp : (spacingStr (n + 2)).data = List.replicate ((n + 2) * 4) ' ' := rfl
      rw [hsp, List.take_append_eq_append_take, List.take_append_eq_append_take,
        List.take_replicate, List.length_append, List.length_replicate] at hd
      have e1 : 5 ⊓ ((n + 2) * 4) = 5 := by omega
      have e2 : 5 - (n + 2) * 4 = 0 := by omega
      have e3 : 5 - ((n + 2) * 4 + (depthColorsGet (n + 2 + 1)).data.length) = 0 := by omega
      rw [e1, e2, e3, List.take_zero, List.take_zero, List.append_nil, List.append_nil] at hd
      exact absurd hd (by decide)
